import Mathlib

/-!
Verification of the p2p-chat core: the append-only signed log (`src/log.rs`),
its crypto helpers (`src/crypto.rs`), and the multicast discovery protocol
(`src/discovery.rs`), shallowly embedded in Lean 4.

Bytes are modelled as `Nat` values below 256, byte strings as `List Nat`,
64-bit machine integers as `Nat` with explicit reduction modulo `2 ^ 64`
where overflow matters, and panicking (`unwrap`) code paths as `Except`.
-/

deriving instance DecidableEq for Except

set_option maxRecDepth 100000

namespace P2PChat

/-- Big-endian 8-byte encoding of a 64-bit value
(`byteorder::BigEndian::write_u64`, used by `LogEntryContent::to_bytes`). -/
def be8 (w : Nat) : List Nat :=
  [w / 256 ^ 7 % 256, w / 256 ^ 6 % 256, w / 256 ^ 5 % 256, w / 256 ^ 4 % 256,
   w / 256 ^ 3 % 256, w / 256 ^ 2 % 256, w / 256 % 256, w % 256]

/-- Little-endian 8-byte encoding of a 64-bit value: the byte order produced by
Rust's default `Hasher::write_u64`/`write_usize` (`to_ne_bytes`) on the
x86-64 little-endian platforms this program targets. -/
def le8 (w : Nat) : List Nat :=
  [w % 256, w / 256 % 256, w / 256 ^ 2 % 256, w / 256 ^ 3 % 256,
   w / 256 ^ 4 % 256, w / 256 ^ 5 % 256, w / 256 ^ 6 % 256, w / 256 ^ 7 % 256]

/-- First 8 bytes of a byte string read as a big-endian 64-bit integer
(`Cursor::read_u64::<BigEndian>` in `Blake2bHasher::finish`). -/
def first8BE (bytes : List Nat) : Nat :=
  (bytes.take 8).foldl (fun acc b => acc * 256 + b) 0

namespace Blake2b

/-!
Modelled from the spec: the external `blake2_rfc` crate computes BLAKE2b
(RFC 7693).  The spec describes `chainHash` as "BLAKE2b-512 over the entry's
canonical byte form, truncated to the first 8 bytes interpreted big-endian";
the digest itself is reproduced here executably so that concrete chain-hash
values can be computed inside Lean.  64-bit words are `Nat` values reduced
modulo `2 ^ 64` after every addition, rotation and shift.
-/

def add64 (a b : Nat) : Nat := (a + b) % 18446744073709551616

def rotr (x n : Nat) : Nat :=
  ((x >>> n) ||| (x <<< (64 - n))) % 18446744073709551616

def IV : List Nat :=
  [0x6a09e667f3bcc908, 0xbb67ae8584caa73b, 0x3c6ef372fe94f82b, 0xa54ff53a5f1d36f1,
   0x510e527fade682d1, 0x9b05688c2b3e6c1f, 0x1f83d9abfb41bd6b, 0x5be0cd19137e2179]

def SIGMA : List (List Nat) :=
  [[0, 1, 2, 3, 4, 5, 6, 7, 8, 9, 10, 11, 12, 13, 14, 15],
   [14, 10, 4, 8, 9, 15, 13, 6, 1, 12, 0, 2, 11, 7, 5, 3],
   [11, 8, 12, 0, 5, 2, 15, 13, 10, 14, 3, 6, 7, 1, 9, 4],
   [7, 9, 3, 1, 13, 12, 11, 14, 2, 6, 5, 10, 4, 0, 15, 8],
   [9, 0, 5, 7, 2, 4, 10, 15, 14, 1, 11, 12, 6, 8, 3, 13],
   [2, 12, 6, 10, 0, 11, 8, 3, 4, 13, 7, 5, 15, 14, 1, 9],
   [12, 5, 1, 15, 14, 13, 4, 10, 0, 7, 6, 3, 9, 2, 8, 11],
   [13, 11, 7, 14, 12, 1, 3, 9, 5, 0, 15, 4, 8, 6, 2, 10],
   [6, 15, 14, 9, 11, 3, 0, 8, 12, 2, 13, 7, 1, 4, 10, 5],
   [10, 2, 8, 4, 7, 6, 1, 5, 15, 11, 9, 14, 3, 12, 13, 0]]

/-- The BLAKE2b mixing function G (RFC 7693 §3.1); `i` and `j` index the
round's message-word permutation `s`. -/
def G (m s : List Nat) (v : List Nat) (a b c d i j : Nat) : List Nat :=
  let x := m.getD (s.getD i 0) 0
  let y := m.getD (s.getD j 0) 0
  let va := add64 (add64 (v.getD a 0) (v.getD b 0)) x
  let vd := rotr ((v.getD d 0) ^^^ va) 32
  let vc := add64 (v.getD c 0) vd
  let vb := rotr ((v.getD b 0) ^^^ vc) 24
  let va' := add64 (add64 va vb) y
  let vd' := rotr (vd ^^^ va') 16
  let vc' := add64 vc vd'
  let vb' := rotr (vb ^^^ vc') 63
  (((v.set a va').set b vb').set c vc').set d vd'

/-- One BLAKE2b round: eight applications of G, column step then diagonal step. -/
def blakeRound (m : List Nat) (v : List Nat) (r : Nat) : List Nat :=
  let s := SIGMA.getD (r % 10) []
  let g := G m s
  g (g (g (g (g (g (g (g v 0 4 8 12 0 1) 1 5 9 13 2 3) 2 6 10 14 4 5)
    3 7 11 15 6 7) 0 5 10 15 8 9) 1 6 11 12 10 11) 2 7 8 13 12 13) 3 4 9 14 14 15

/-- A little-endian byte string read as one word. -/
def leWord (bytes : List Nat) : Nat :=
  bytes.foldr (fun b acc => acc * 256 + b) 0

/-- The sixteen little-endian message words of one 128-byte block. -/
def msgWords (block : List Nat) : List Nat :=
  (List.range 16).map fun i => leWord ((block.drop (8 * i)).take 8)

/-- The BLAKE2b compression function F (RFC 7693 §3.2). -/
def compress (h : List Nat) (block : List Nat) (t : Nat) (last : Bool) : List Nat :=
  let m := msgWords block
  let v0 := h ++ IV
  let v1 := v0.set 12 ((v0.getD 12 0) ^^^ (t % 18446744073709551616))
  let v2 := v1.set 13 ((v1.getD 13 0) ^^^ (t / 18446744073709551616 % 18446744073709551616))
  let v3 := if last then v2.set 14 ((v2.getD 14 0) ^^^ 0xffffffffffffffff) else v2
  let v := (List.range 12).foldl (blakeRound m) v3
  (List.range 8).map fun i => (h.getD i 0) ^^^ (v.getD i 0) ^^^ (v.getD (i + 8) 0)

/-- Zero-pad a final block to 128 bytes. -/
def padBlock (block : List Nat) : List Nat :=
  block ++ List.replicate (128 - block.length) 0

/-- Process the message 128 bytes at a time; `fuel` bounds the recursion and is
always supplied as more than the number of blocks, so the `0` case is never
reached on the arguments used below. -/
def processBlocks (fuel : Nat) (h : List Nat) (t : Nat) (msg : List Nat) : List Nat :=
  match fuel with
  | 0 => h
  | fuel + 1 =>
    if msg.length ≤ 128 then compress h (padBlock msg) (t + msg.length) true
    else processBlocks fuel (compress h (msg.take 128) (t + 128) false) (t + 128) (msg.drop 128)

/-- Initial state for an unkeyed 64-byte-output BLAKE2b instance:
`IV0 xor 0x01010000 xor outlen` (RFC 7693 §2.5). -/
def initH : List Nat := IV.set 0 ((IV.getD 0 0) ^^^ 0x01010040)

/-- The full 64-byte BLAKE2b-512 digest of a byte string. -/
def blake2b512 (msg : List Nat) : List Nat :=
  ((processBlocks (msg.length + 1) initH 0 msg).map le8).flatten

end Blake2b

namespace Crypto

/-- `crypto::Blake2bHasher` (`src/crypto.rs` lines 12-22): a `std::hash::Hasher`
backed by a streaming BLAKE2b-512 context.  The incremental `Blake2b::update`
context is modelled by the list of bytes written so far; feeding them to the
one-shot digest at the end is exactly what the streaming implementation
computes. -/
structure Blake2bHasher where
  buffer : List Nat
deriving DecidableEq

/-- `Blake2bHasher::new` (`Blake2b::new(64)`): fresh 64-byte-output context. -/
def Blake2bHasher.new : Blake2bHasher := ⟨[]⟩

/-- `Hasher::write` for `Blake2bHasher`: `self.context.update(bytes)`. -/
def Blake2bHasher.write (h : Blake2bHasher) (bytes : List Nat) : Blake2bHasher :=
  ⟨h.buffer ++ bytes⟩

/-- `Hasher::finish` for `Blake2bHasher`: finalize the BLAKE2b-512 digest and
read its first 8 bytes as a big-endian `u64`. -/
def Blake2bHasher.finish (h : Blake2bHasher) : Nat :=
  first8BE (Blake2b.blake2b512 h.buffer)

/-- Rust's default `Hasher::write_u64`: writes the value's native-endian
(little-endian) bytes.  The value is a `u64`, so it is reduced modulo
`2 ^ 64` by the 8-byte encoding itself. -/
def Blake2bHasher.writeU64 (h : Blake2bHasher) (w : Nat) : Blake2bHasher :=
  h.write (le8 w)

/-- Rust's default `Hasher::write_usize` on a 64-bit platform: identical byte
layout to `write_u64`. -/
def Blake2bHasher.writeUsize (h : Blake2bHasher) (w : Nat) : Blake2bHasher :=
  h.write (le8 w)

/-- `impl Hash for [u8]`: the slice's length is hashed first (via
`write_usize`), then each byte is written (`write_u8`), one at a time. -/
def Blake2bHasher.hashByteSlice (h : Blake2bHasher) (bytes : List Nat) : Blake2bHasher :=
  bytes.foldl (fun st b => st.write [b]) (h.writeUsize bytes.length)

end Crypto

namespace HashForm

/-- A log entry as it exists in memory for the purpose of chain hashing
(`src/log.rs`): arbitrary data bytes, two `u64` fields and the signature's
64 raw bytes (`Signature::to_bytes`). -/
structure LogEntry where
  data : List Nat
  hash_previous : Nat
  sequence_number : Nat
  signature : List Nat
deriving DecidableEq

/-- `impl Hash for LogEntry` (`src/log.rs` lines 64-70): feed
`hash_previous`, `sequence_number` and `signature.to_bytes()` — and nothing
else — to the hasher state. -/
def LogEntry.hashInto (e : LogEntry) (state : Crypto.Blake2bHasher) : Crypto.Blake2bHasher :=
  ((state.writeU64 e.hash_previous).writeU64 e.sequence_number).hashByteSlice e.signature

/-- `generate_hash` (`src/log.rs` lines 12-16): hash the value into a fresh
`Blake2bHasher` and take `finish()`. -/
def generate_hash (e : LogEntry) : Nat :=
  (e.hashInto Crypto.Blake2bHasher.new).finish

/-- The canonical byte form that the SPEC claims is hashed: content data
bytes, then `hashPrevious` as 8 big-endian bytes, then `sequenceNumber` as
8 big-endian bytes, then the 64 signature bytes (spec §4.1 `chainHash`).
Written from the spec's words, for comparison against `generate_hash`. -/
def specCanonicalBytes (e : LogEntry) : List Nat :=
  e.data ++ be8 e.hash_previous ++ be8 e.sequence_number ++ e.signature

/-- The chain hash the SPEC describes: BLAKE2b-512 over `specCanonicalBytes`,
truncated to the first 8 bytes interpreted big-endian. -/
def specChainHash (e : LogEntry) : Nat :=
  first8BE (Blake2b.blake2b512 (specCanonicalBytes e))

end HashForm

namespace Core

/-!
The append-only log of `src/log.rs`, with the two external `ed25519_dalek`
primitives modelled symbolically.

Modelled from the spec: `sign(secretKey, publicKey, message)` is
deterministic Ed25519 and binds the signing key and the exact message bytes;
`verify(publicKey, message, signature)` succeeds exactly on a signature made
with the matching secret key over the same message (spec §4.1).  A signature
is therefore embedded as the pair of the signing key's seed and the signed
message, and a key pair as a seed with `public = secret` (the public key is
a deterministic function of the secret key, and only their correspondence
matters to the log).

The chain-hash function — externally `generate_hash`, i.e. the BLAKE2b
hasher of `src/crypto.rs` applied to the fields selected by
`impl Hash for LogEntry`, reproduced at byte level in `P2PChat.HashForm` —
enters every definition as an explicit parameter `H : LogEntry → Nat`, so
each theorem states exactly which property of the digest it uses.
-/

/-- `LogEntryContent` (`src/log.rs` lines 18-23). -/
structure LogEntryContent where
  data : List Nat
  hash_previous : Nat
  sequence_number : Nat
deriving DecidableEq

/-- `LogEntryContent::new`. -/
def LogEntryContent.new (hash_previous : Nat) (data : List Nat) (sequence_number : Nat) :
    LogEntryContent :=
  { data := data, hash_previous := hash_previous, sequence_number := sequence_number }

/-- `LogEntryContent::to_bytes`: the data bytes, then `hash_previous` and
`sequence_number` as 8 big-endian bytes each. -/
def LogEntryContent.to_bytes (c : LogEntryContent) : List Nat :=
  c.data ++ be8 c.hash_previous ++ be8 c.sequence_number

/-- Symbolic Ed25519 signature: the signing key's seed together with the
signed message (see the namespace comment). -/
structure Signature where
  key : Nat
  message : List Nat
deriving DecidableEq

/-- `crypto::sign_data` (`src/crypto.rs` lines 44-50), symbolically. -/
def sign_data (publicKey secretKey : Nat) (data : List Nat) : Signature :=
  { key := secretKey, message := data }

/-- `crypto::verify_data` (`src/crypto.rs` lines 52-62), symbolically:
`Ok(())` exactly when the signature was made with the matching secret key
over the same bytes, `Err(())` otherwise — never a crash. -/
def verify_data (publicKey : Nat) (data : List Nat) (signature : Signature) :
    Except Unit Unit :=
  if signature = { key := publicKey, message := data } then .ok () else .error ()

/-- `ed25519_dalek::Keypair`, symbolically: generated from one seed, with
`public` determined by `secret`. -/
structure Keypair where
  public : Nat
  secret : Nat
deriving DecidableEq

/-- `crypto::generate_keypair`: the OS entropy drawn by `OsRng` is made an
explicit `seed` argument. -/
def generate_keypair (seed : Nat) : Keypair :=
  { public := seed, secret := seed }

/-- `LogEntry` (`src/log.rs` lines 42-46). -/
structure LogEntry where
  content : LogEntryContent
  signature : Signature
deriving DecidableEq

/-- `LogEntry::sign` (`src/log.rs` lines 49-56). -/
def LogEntry.sign (content : LogEntryContent) (keypair : Keypair) : LogEntry :=
  { content := content
    signature := sign_data keypair.public keypair.secret content.to_bytes }

/-- `LogEntry::verify` (`src/log.rs` lines 58-61): `verify_data(...).is_ok()`. -/
def LogEntry.verify (e : LogEntry) (public_key : Nat) : Bool :=
  (verify_data public_key e.content.to_bytes e.signature).isOk

/-- Placeholder entry for the `getD` accesses below; every such access is made
at an index that is in range whenever the Rust code's `entries[i]` is. -/
def defaultEntry : LogEntry :=
  { content := { data := [], hash_previous := 0, sequence_number := 0 }
    signature := { key := 0, message := [] } }

/-- `Log` (`src/log.rs` lines 73-77). -/
structure Log where
  entries : List LogEntry
  keypair : Keypair
deriving DecidableEq

/-- `Log::new` (seed = the entropy drawn for the key pair). -/
def Log.new (seed : Nat) : Log :=
  { entries := [], keypair := generate_keypair seed }

/-- `Log::public_key`. -/
def Log.public_key (log : Log) : Nat :=
  log.keypair.public

/-- `Log::len`. -/
def Log.len (log : Log) : Nat :=
  log.entries.length

/-- `Log::is_empty`. -/
def Log.is_empty (log : Log) : Bool :=
  log.entries.isEmpty

/-- `Log::get`: the stored data at this position, if any. -/
def Log.get (log : Log) (index : Nat) : Option (List Nat) :=
  (log.entries.get? index).map (fun entry => entry.content.data)

/-- `Log::hash`: the chain hash of the entry at this position, if any. -/
def Log.hash (H : LogEntry → Nat) (log : Log) (index : Nat) : Option Nat :=
  (log.entries.get? index).map H

/-- `Log::append` (`src/log.rs` lines 94-111). -/
def Log.append (H : LogEntry → Nat) (log : Log) (data : List Nat) : Log :=
  let sequence_number := log.len + 1
  let hash_previous :=
    if sequence_number > 1 then H (log.entries.getD (sequence_number - 2) defaultEntry)
    else 0
  let content := LogEntryContent.new hash_previous data sequence_number
  let entry := LogEntry.sign content log.keypair
  { log with entries := log.entries ++ [entry] }

/-- The body of the closure passed to `Iterator::any` in `Log::verify`
(`src/log.rs` lines 137-160), negated: `true` when the entry passes the
chain-hash check, the sequence-number check and the signature check, with
the running counter made an explicit argument. -/
def checkEntry (H : LogEntry → Nat) (all : List LogEntry) (public_key : Nat)
    (entry : LogEntry) (sequence_number : Nat) : Bool :=
  (if sequence_number > 1 then
    decide (H (all.getD (sequence_number - 2) defaultEntry) = entry.content.hash_previous)
  else true)
  && decide (sequence_number = entry.content.sequence_number)
  && entry.verify public_key

/-- The `any` loop of `Log::verify`, negated: all remaining entries pass,
short-circuiting at the first failure exactly as `Iterator::any` does. -/
def verifyFrom (H : LogEntry → Nat) (all : List LogEntry) (public_key : Nat) :
    List LogEntry → Nat → Bool
  | [], _ => true
  | entry :: rest, sequence_number =>
    checkEntry H all public_key entry sequence_number
      && verifyFrom H all public_key rest (sequence_number + 1)

/-- `Log::verify` (`src/log.rs` lines 134-163). -/
def Log.verify (H : LogEntry → Nat) (log : Log) (public_key : Nat) : Bool :=
  verifyFrom H log.entries public_key log.entries 1

/-- A sequence of `append` calls, oldest payload first. -/
def Log.appendAll (H : LogEntry → Nat) (log : Log) (payloads : List (List Nat)) : Log :=
  payloads.foldl (Log.append H) log

/-- A cheap concrete instance of the chain-hash parameter (used by witnesses):
a rolling-product digest of the hashed fields, reduced modulo `2 ^ 64`. -/
def cheapHash (e : LogEntry) : Nat :=
  (e.signature.message.foldl (fun acc b => (acc * 256 + b + 1) % 18446744073709551616)
    ((e.content.hash_previous + 31 * e.content.sequence_number + 37 * e.signature.key + 1)
      % 18446744073709551616)) % 18446744073709551616

/-- An injective encoding of byte strings, for the ideal-hash instance. -/
def encodeBytes : List Nat → Nat
  | [] => 0
  | b :: rest => Nat.pair b (encodeBytes rest) + 1

/-- An ideal (collision-free) instance of the chain-hash parameter: a pairing
of exactly the fields that `impl Hash for LogEntry` feeds to the hasher. -/
def idealHash (e : LogEntry) : Nat :=
  Nat.pair e.content.hash_previous
    (Nat.pair e.content.sequence_number
      (Nat.pair e.signature.key (encodeBytes e.signature.message)))

/-- Collision-freeness of a chain-hash function on the fields it digests:
equal digests force equal `hash_previous`, `sequence_number` and signature.
`idealHash` satisfies it; the real 64-bit truncated BLAKE2b digest satisfies
it for all practically occurring inputs. -/
def IdealChainHash (H : LogEntry → Nat) : Prop :=
  ∀ e₁ e₂ : LogEntry, H e₁ = H e₂ →
    e₁.content.hash_previous = e₂.content.hash_previous
      ∧ e₁.content.sequence_number = e₂.content.sequence_number
      ∧ e₁.signature = e₂.signature

/-- After-the-fact alteration of entry `k`'s stored data: byte `p` is set to
`b`. -/
def alterDataByte (entries : List LogEntry) (k p b : Nat) : List LogEntry :=
  let e := entries.getD k defaultEntry
  entries.set k { e with content := { e.content with data := e.content.data.set p b } }

/-- After-the-fact alteration of entry `k`'s stored `hash_previous`. -/
def alterHashPrevious (entries : List LogEntry) (k h : Nat) : List LogEntry :=
  let e := entries.getD k defaultEntry
  entries.set k { e with content := { e.content with hash_previous := h } }

/-- After-the-fact alteration of entry `k`'s stored `sequence_number`. -/
def alterSequenceNumber (entries : List LogEntry) (k s : Nat) : List LogEntry :=
  let e := entries.getD k defaultEntry
  entries.set k { e with content := { e.content with sequence_number := s } }

/-- After-the-fact exchange of the entries at positions `i` and `j`. -/
def swapEntries (entries : List LogEntry) (i j : Nat) : List LogEntry :=
  (entries.set i (entries.getD j defaultEntry)).set j (entries.getD i defaultEntry)

/-- The invariant `append` maintains: entry `i` carries sequence number
`i + 1`, links to the chain hash of its predecessor, and is signed with the
log's own key pair over its canonical bytes. -/
def GoodLog (H : LogEntry → Nat) (log : Log) : Prop :=
  ∀ i, i < log.entries.length →
    (log.entries.getD i defaultEntry).content.sequence_number = i + 1
    ∧ (0 < i → (log.entries.getD i defaultEntry).content.hash_previous
        = H (log.entries.getD (i - 1) defaultEntry))
    ∧ (log.entries.getD i defaultEntry).signature
        = sign_data log.keypair.public log.keypair.secret
            (log.entries.getD i defaultEntry).content.to_bytes

end Core

namespace Base64

/-!
Modelled from the spec: the external `base64` crate with the standard
alphabet and `=` padding, used by `encode_peers_field`/`decode_peers_field`
("base64 of 4 ipv4 octets + 2-byte big-endian port", spec §4.3/§6).
`decode` of an invalid string is an error (the call site `unwrap`s it).
-/

/-- The standard-alphabet character for a 6-bit group. -/
def encChar (s : Nat) : Nat :=
  if s < 26 then 65 + s
  else if s < 52 then 71 + s
  else if s < 62 then s - 4
  else if s = 62 then 43
  else 47

/-- Base64-encode a byte string, three bytes to four characters, padding the
final group with `=`. -/
def encode : List Nat → List Nat
  | [] => []
  | [a] => [encChar (a / 4), encChar (a % 4 * 16), 61, 61]
  | [a, b] => [encChar (a / 4), encChar (a % 4 * 16 + b / 16), encChar (b % 16 * 4), 61]
  | a :: b :: c :: rest =>
    encChar (a / 4) :: encChar (a % 4 * 16 + b / 16)
      :: encChar (b % 16 * 4 + c / 64) :: encChar (c % 64) :: encode rest

/-- The 6-bit group of a standard-alphabet character, or an error. -/
def decChar (c : Nat) : Except Unit Nat :=
  if 65 ≤ c ∧ c ≤ 90 then .ok (c - 65)
  else if 97 ≤ c ∧ c ≤ 122 then .ok (c - 71)
  else if 48 ≤ c ∧ c ≤ 57 then .ok (c + 4)
  else if c = 43 then .ok 62
  else if c = 47 then .ok 63
  else .error ()

/-- Decode a padding-stripped base64 string; a leftover group of one
character is invalid. -/
def decodeCore : List Nat → Except Unit (List Nat)
  | [] => .ok []
  | [_] => .error ()
  | [c1, c2] => do
    let s1 ← decChar c1
    let s2 ← decChar c2
    .ok [s1 * 4 + s2 / 16]
  | [c1, c2, c3] => do
    let s1 ← decChar c1
    let s2 ← decChar c2
    let s3 ← decChar c3
    .ok [s1 * 4 + s2 / 16, s2 % 16 * 16 + s3 / 4]
  | c1 :: c2 :: c3 :: c4 :: rest => do
    let s1 ← decChar c1
    let s2 ← decChar c2
    let s3 ← decChar c3
    let s4 ← decChar c4
    let tail ← decodeCore rest
    .ok ((s1 * 4 + s2 / 16) :: (s2 % 16 * 16 + s3 / 4) :: (s3 % 4 * 64 + s4) :: tail)

/-- Strip trailing `=` padding. -/
def stripPad (s : List Nat) : List Nat :=
  (s.reverse.dropWhile (fun c => c == 61)).reverse

/-- `base64::decode`. -/
def decode (s : List Nat) : Except Unit (List Nat) :=
  decodeCore (stripPad s)

end Base64

namespace Discovery

/-- Validity of a byte string as UTF-8 (what `str::from_utf8` accepts):
ASCII, or correctly ranged 2- to 4-byte sequences, excluding overlong forms,
surrogates and code points above U+10FFFF. -/
def isValidUtf8 : List Nat → Bool
  | [] => true
  | b :: rest =>
    if b < 0x80 then isValidUtf8 rest
    else if b < 0xC2 then false
    else if b < 0xE0 then
      match rest with
      | c1 :: rest' => decide (0x80 ≤ c1 ∧ c1 < 0xC0) && isValidUtf8 rest'
      | [] => false
    else if b < 0xF0 then
      match rest with
      | c1 :: c2 :: rest' =>
        (if b = 0xE0 then decide (0xA0 ≤ c1 ∧ c1 < 0xC0)
         else if b = 0xED then decide (0x80 ≤ c1 ∧ c1 < 0xA0)
         else decide (0x80 ≤ c1 ∧ c1 < 0xC0))
          && decide (0x80 ≤ c2 ∧ c2 < 0xC0) && isValidUtf8 rest'
      | _ => false
    else if b < 0xF5 then
      match rest with
      | c1 :: c2 :: c3 :: rest' =>
        (if b = 0xF0 then decide (0x90 ≤ c1 ∧ c1 < 0xC0)
         else if b = 0xF4 then decide (0x80 ≤ c1 ∧ c1 < 0x90)
         else decide (0x80 ≤ c1 ∧ c1 < 0xC0))
          && decide (0x80 ≤ c2 ∧ c2 < 0xC0) && decide (0x80 ≤ c3 ∧ c3 < 0xC0)
          && isValidUtf8 rest'
      | _ => false
    else false

/-- The byte string `"token"`. -/
def tokenKey : List Nat := [116, 111, 107, 101, 110]

/-- The byte string `"peers"`. -/
def peersKey : List Nat := [112, 101, 101, 114, 115]

/-- `str::splitn(2, '=')`: the part before the first `=` and the part after
it, or `none` when the string has no `=` (in which case the Rust split has
length 1 and the field is filtered out). -/
def splitFirstEq : List Nat → Option (List Nat × List Nat)
  | [] => none
  | c :: rest =>
    if c = 61 then some ([], rest)
    else (splitFirstEq rest).map (fun p => (c :: p.1, p.2))

/-- The field-collection pipeline of `DiscoveryPeer::from_message`
(`src/discovery.rs` lines 216-228): UTF-8-decode every TXT byte string
(`unwrap` — an error on invalid UTF-8), split each at the first `=`, and
keep only well-formed `token`/`peers` fields, in order. -/
def recordFields : List (List Nat) → Except Unit (List (List Nat × List Nat))
  | [] => .ok []
  | d :: rest =>
    if isValidUtf8 d then do
      let restFields ← recordFields rest
      match splitFirstEq d with
      | some (key, value) =>
        if key = tokenKey ∨ key = peersKey then .ok ((key, value) :: restFields)
        else .ok restFields
      | none => .ok restFields
    else .error ()

/-- `HashMap::insert`: replace the value when the key is already present. -/
def mapInsert (m : List (List Nat × List Nat)) (k v : List Nat) :
    List (List Nat × List Nat) :=
  match m with
  | [] => [(k, v)]
  | (k', v') :: rest => if k' = k then (k, v) :: rest else (k', v') :: mapInsert rest k v

/-- The `HashMap` built from the collected fields. -/
def buildMap (fields : List (List Nat × List Nat)) : List (List Nat × List Nat) :=
  fields.foldl (fun m f => mapInsert m f.1 f.2) []

/-- `HashMap` indexing `map[key]`: panics (an error here) when the key is
absent. -/
def mapIndex (m : List (List Nat × List Nat)) (k : List Nat) : Except Unit (List Nat) :=
  match m with
  | [] => .error ()
  | (k', v) :: rest => if k' = k then .ok v else mapIndex rest k

/-- `DiscoveryPeer` (`src/discovery.rs` lines 193-197); the `Ipv4Addr` is its
four octets. -/
structure DiscoveryPeer where
  addr : List Nat
  port : Nat
  token : List Nat
deriving DecidableEq

/-- `DiscoveryPeer::encode_peers_field` (`src/discovery.rs` lines 253-263):
base64 of the four address octets followed by the port as two big-endian
bytes. -/
def DiscoveryPeer.encode_peers_field (p : DiscoveryPeer) : List Nat :=
  Base64.encode (p.addr ++ [p.port / 256 % 256, p.port % 256])

/-- `DiscoveryPeer::decode_peers_field` (`src/discovery.rs` lines 265-278):
base64-decode (`unwrap`), then read four octets and a big-endian `u16`
(`unwrap` — an error when fewer than six bytes result). -/
def decode_peers_field (data : List Nat) : Except Unit (List Nat × Nat) :=
  match Base64.decode data with
  | .error e => .error e
  | .ok bytes =>
    match bytes with
    | b1 :: b2 :: b3 :: b4 :: b5 :: b6 :: _ => .ok ([b1, b2, b3, b4], b5 * 256 + b6)
    | _ => .error ()

/-- DNS record data: a TXT record's byte strings, or any other record type. -/
inductive RData where
  | txt (strings : List (List Nat))
  | other
deriving DecidableEq

/-- A DNS resource record, reduced to the data `from_message` inspects. -/
structure DnsRecord where
  rdata : RData
deriving DecidableEq

/-- `trust_dns::op::MessageType`. -/
inductive MessageType where
  | query
  | response
deriving DecidableEq

/-- A parsed DNS message, reduced to the parts the discovery code inspects:
its type, the names of its query section, and its answer records.  (The wire
parse `Message::from_vec` lives in the external `trust_dns` crate; an
unparsable datagram is discarded before this point.) -/
structure Message where
  messageType : MessageType
  queries : List (List Nat)
  answers : List DnsRecord
deriving DecidableEq

/-- The `find_map` over the message's answers in `DiscoveryPeer::from_message`
(`src/discovery.rs` lines 212-251): skip non-TXT records and TXT records
without exactly two `token`/`peers` fields; otherwise index the field map
(panic when a kind is missing, e.g. two `token` fields) and decode the peers
field (panic on malformed base64 or short decodings). -/
def fromMessageAnswers : List DnsRecord → Except Unit (Option DiscoveryPeer)
  | [] => .ok none
  | r :: rest =>
    match r.rdata with
    | .other => fromMessageAnswers rest
    | .txt strings =>
      match recordFields strings with
      | .error e => .error e
      | .ok fields =>
        if fields.length ≠ 2 then fromMessageAnswers rest
        else
          let map := buildMap fields
          match mapIndex map tokenKey with
          | .error e => .error e
          | .ok token =>
            match mapIndex map peersKey with
            | .error e => .error e
            | .ok peers =>
              match decode_peers_field peers with
              | .error e => .error e
              | .ok (addr, port) => .ok (some { addr := addr, port := port, token := token })

/-- `DiscoveryPeer::from_message`. -/
def DiscoveryPeer.from_message (message : Message) : Except Unit (Option DiscoveryPeer) :=
  fromMessageAnswers message.answers

/-- ASCII lower-casing, for `Name::eq_case`'s case-insensitive comparison. -/
def asciiLower (c : Nat) : Nat :=
  if 65 ≤ c ∧ c ≤ 90 then c + 32 else c

/-- `Name::eq_case`: case-insensitive name equality. -/
def nameEqCase (a b : List Nat) : Bool :=
  decide (a.map asciiLower = b.map asciiLower)

/-- The state of `DiscoveryStream` that `handle_incoming_message` reads: the
rendezvous name and the local peer record (whose token is the session
token). -/
structure DiscoveryStream where
  name : List Nat
  peer : DiscoveryPeer
deriving DecidableEq

/-- `DiscoveryStream::handle_incoming_message` (`src/discovery.rs` lines
104-142), for an already parsed message: discard it unless some queried name
matches the rendezvous name; answer queries (an outbound send, yielding no
peer); for responses, decode a peer record and yield it unless its token
equals the local session token. -/
def DiscoveryStream.handle_incoming_message (s : DiscoveryStream) (message : Message) :
    Except Unit (Option DiscoveryPeer) :=
  if !(message.queries.any (fun q => nameEqCase q s.name)) then .ok none
  else
    match message.messageType with
    | .query => .ok none
    | .response =>
      match DiscoveryPeer.from_message message with
      | .error e => .error e
      | .ok none => .ok none
      | .ok (some interested_peer) =>
        if interested_peer.token ≠ s.peer.token then .ok (some interested_peer)
        else .ok none

end Discovery

/-! ## Theorems -/

theorem foldl_write_buffer (bytes : List Nat) (h : Crypto.Blake2bHasher) :
    (bytes.foldl (fun st b => st.write [b]) h).buffer = h.buffer ++ bytes := by
  induction bytes generalizing h with
  | nil => simp
  | cons b rest ih =>
    rw [List.foldl_cons, ih]
    simp [Crypto.Blake2bHasher.write]

/-- C2 (amended): the chain hash is the first 8 bytes, big-endian, of the
BLAKE2b-512 digest of the byte stream that the generic `Hash` implementation
produces: `hashPrevious` as 8 little-endian (native-endian) bytes, then
`sequenceNumber` as 8 little-endian bytes, then the signature slice's length
as 8 little-endian bytes, then the signature bytes themselves — the content
data bytes are not part of the hashed form. -/
theorem chain_hash_eq_hasher_stream (e : HashForm.LogEntry) :
    HashForm.generate_hash e
      = first8BE (Blake2b.blake2b512
          (le8 e.hash_previous ++ le8 e.sequence_number ++ le8 e.signature.length
            ++ e.signature)) := by
  simp only [HashForm.generate_hash, HashForm.LogEntry.hashInto,
    Crypto.Blake2bHasher.hashByteSlice, Crypto.Blake2bHasher.finish]
  rw [foldl_write_buffer]
  simp [Crypto.Blake2bHasher.writeU64, Crypto.Blake2bHasher.writeUsize,
    Crypto.Blake2bHasher.write, Crypto.Blake2bHasher.new]

/-- C2 (counterexample): for the concrete entry with data `[1]`,
`hashPrevious = 0`, `sequenceNumber = 1` and an all-zero 64-byte signature,
the chain hash computed by the code differs from the value the spec's
canonical byte form (data bytes, then big-endian `hashPrevious`, big-endian
`sequenceNumber`, then the signature bytes) would give. -/
theorem chain_hash_spec_counterexample :
    HashForm.generate_hash
        { data := [1], hash_previous := 0, sequence_number := 1,
          signature := List.replicate 64 0 }
      ≠ HashForm.specChainHash
        { data := [1], hash_previous := 0, sequence_number := 1,
          signature := List.replicate 64 0 } := by
  decide

/-- C10: the chain hash of a log entry is independent of the entry's data
field — two entries with equal `hashPrevious`, `sequenceNumber` and
signature bytes but arbitrary data have the same chain hash, so the chain
link does not bind the stored data bytes. -/
theorem chain_hash_independent_of_data (e₁ e₂ : HashForm.LogEntry)
    (hh : e₁.hash_previous = e₂.hash_previous)
    (hs : e₁.sequence_number = e₂.sequence_number)
    (hsig : e₁.signature = e₂.signature) :
    HashForm.generate_hash e₁ = HashForm.generate_hash e₂ := by
  simp [HashForm.generate_hash, HashForm.LogEntry.hashInto, hh, hs, hsig]

/-- Witness for C10 at two concrete entries differing only in their data. -/
theorem chain_hash_independent_of_data_witness :
    HashForm.generate_hash
        { data := [1], hash_previous := 0, sequence_number := 1,
          signature := List.replicate 64 0 }
      = HashForm.generate_hash
        { data := [2, 3], hash_previous := 0, sequence_number := 1,
          signature := List.replicate 64 0 } :=
  chain_hash_independent_of_data _ _ rfl rfl rfl

/-- C8: signing the same content (same data, `hashPrevious` and
`sequenceNumber`) twice under the same key pair and chain-hashing both
resulting entries yields identical chain digests, for any chain-hash
function: signing and chain hashing are deterministic. -/
theorem sign_and_chain_hash_deterministic (H : Core.LogEntry → Nat)
    (keypair : Core.Keypair) (c₁ c₂ : Core.LogEntryContent)
    (hd : c₁.data = c₂.data) (hh : c₁.hash_previous = c₂.hash_previous)
    (hs : c₁.sequence_number = c₂.sequence_number) :
    H (Core.LogEntry.sign c₁ keypair) = H (Core.LogEntry.sign c₂ keypair) := by
  have hc : c₁ = c₂ := by cases c₁; cases c₂; simp_all
  rw [hc]

/-- Witness for C8, mirroring the repository's own `hash` test: content
`(0, [1, 2, 3], 1)` signed twice under the key pair from seed 5. -/
theorem sign_and_chain_hash_deterministic_witness :
    Core.cheapHash
        (Core.LogEntry.sign (Core.LogEntryContent.new 0 [1, 2, 3] 1)
          (Core.generate_keypair 5))
      = Core.cheapHash
        (Core.LogEntry.sign (Core.LogEntryContent.new 0 [1, 2, 3] 1)
          (Core.generate_keypair 5)) :=
  sign_and_chain_hash_deterministic Core.cheapHash (Core.generate_keypair 5) _ _ rfl rfl rfl

/-- C3 (the code bug): a received response that matches the rendezvous name
and carries a TXT record with two `token` fields and no `peers` field — a
record that does not contain both required fields — makes
`handle_incoming_message` panic (the `map["peers"]` index), instead of being
silently rejected. -/
theorem missing_peers_field_panics :
    Discovery.DiscoveryStream.handle_incoming_message
        { name := [97], peer := { addr := [0, 0, 0, 0], port := 1234, token := [120] } }
        { messageType := .response, queries := [[97]],
          answers := [{ rdata := .txt [[116, 111, 107, 101, 110, 61, 97],
            [116, 111, 107, 101, 110, 61, 98]] }] }
      = .error () := by
  decide

/-- C6: whenever the inbound handler yields a discovered peer, that peer's
token differs from the local session token — a response carrying the local
token (a self-echo) is never surfaced. -/
theorem self_echo_never_yielded (s : Discovery.DiscoveryStream)
    (m : Discovery.Message) (p : Discovery.DiscoveryPeer)
    (h : s.handle_incoming_message m = .ok (some p)) :
    p.token ≠ s.peer.token := by
  unfold Discovery.DiscoveryStream.handle_incoming_message at h
  split at h
  · simp at h
  · split at h
    · simp at h
    · split at h
      · simp at h
      · simp at h
      · split at h
        · simp only [Except.ok.injEq, Option.some.injEq] at h
          subst h
          assumption
        · simp at h

/-- Witness for C6: a concrete response with token `"a"` against a local
session token `"x"` is yielded, and the two tokens indeed differ. -/
theorem self_echo_never_yielded_witness :
    Discovery.DiscoveryStream.handle_incoming_message
        { name := [97], peer := { addr := [0, 0, 0, 0], port := 1234, token := [120] } }
        { messageType := .response, queries := [[97]],
          answers := [{ rdata := .txt [[116, 111, 107, 101, 110, 61, 97],
            [112, 101, 101, 114, 115, 61, 65, 81, 73, 68, 66, 65, 66, 81]] }] }
      = .ok (some { addr := [1, 2, 3, 4], port := 80, token := [97] })
    ∧ ([97] : List Nat) ≠ [120] :=
  ⟨by decide,
    self_echo_never_yielded
      { name := [97], peer := { addr := [0, 0, 0, 0], port := 1234, token := [120] } }
      { messageType := .response, queries := [[97]],
        answers := [{ rdata := .txt [[116, 111, 107, 101, 110, 61, 97],
          [112, 101, 101, 114, 115, 61, 65, 81, 73, 68, 66, 65, 66, 81]] }] }
      { addr := [1, 2, 3, 4], port := 80, token := [97] }
      (by decide)⟩

theorem decChar_encChar : ∀ s < 64, Base64.decChar (Base64.encChar s) = .ok s := by
  decide

theorem encChar_ne_pad : ∀ s < 64, Base64.encChar s ≠ 61 := by
  decide

/-- C5: decoding the peers field produced by encoding any valid IPv4 address
and 16-bit port returns exactly the original address octets and port. -/
theorem peers_field_roundtrip (a b c d p : Nat) (tok : List Nat)
    (ha : a < 256) (hb : b < 256) (hc : c < 256) (hd : d < 256) (hp : p < 65536) :
    Discovery.decode_peers_field
        (Discovery.DiscoveryPeer.encode_peers_field
          { addr := [a, b, c, d], port := p, token := tok })
      = .ok ([a, b, c, d], p) := by
  have h1 := decChar_encChar (a / 4) (by omega)
  have h2 := decChar_encChar (a % 4 * 16 + b / 16) (by omega)
  have h3 := decChar_encChar (b % 16 * 4 + c / 64) (by omega)
  have h4 := decChar_encChar (c % 64) (by omega)
  have h5 := decChar_encChar (d / 4) (by omega)
  have h6 := decChar_encChar (d % 4 * 16 + p / 256 % 256 / 16) (by omega)
  have h7 := decChar_encChar (p / 256 % 256 % 16 * 4 + p % 256 / 64) (by omega)
  have h8 := decChar_encChar (p % 256 % 64) (by omega)
  have hne : (Base64.encChar (p % 256 % 64) == 61) = false :=
    beq_eq_false_iff_ne.mpr (encChar_ne_pad (p % 256 % 64) (by omega))
  simp only [Discovery.DiscoveryPeer.encode_peers_field, List.cons_append, List.nil_append,
    Base64.encode, Discovery.decode_peers_field, Base64.decode, Base64.stripPad]
  simp only [List.reverse_cons, List.reverse_nil, List.nil_append, List.cons_append,
    List.dropWhile, hne]
  simp only [Base64.decodeCore, h1, h2, h3, h4, h5, h6, h7, h8, bind, Except.bind]
  simp only [Except.ok.injEq, Prod.mk.injEq, List.cons.injEq, and_true]
  omega

/-- Witness for C5 at the concrete address 127.0.0.1 and port 8080. -/
theorem peers_field_roundtrip_witness :
    Discovery.decode_peers_field
        (Discovery.DiscoveryPeer.encode_peers_field
          { addr := [127, 0, 0, 1], port := 8080, token := [120] })
      = .ok ([127, 0, 0, 1], 8080) :=
  peers_field_roundtrip 127 0 0 1 8080 [120]
    (by decide) (by decide) (by decide) (by decide) (by decide)

theorem encodeBytes_injective : Function.Injective Core.encodeBytes := by
  intro l₁ l₂ h
  induction l₁ generalizing l₂ with
  | nil =>
    cases l₂ with
    | nil => rfl
    | cons b t => simp [Core.encodeBytes] at h
  | cons b t ih =>
    cases l₂ with
    | nil => simp [Core.encodeBytes] at h
    | cons b' t' =>
      simp only [Core.encodeBytes, Nat.add_right_cancel_iff, Nat.pair_eq_pair] at h
      rw [h.1, ih h.2]

theorem idealHash_collision_free : Core.IdealChainHash Core.idealHash := by
  intro e₁ e₂ h
  unfold Core.idealHash at h
  have h1 := Nat.pair_eq_pair.mp h
  have h2 := Nat.pair_eq_pair.mp h1.2
  have h3 := Nat.pair_eq_pair.mp h2.2
  refine ⟨h1.1, h2.1, ?_⟩
  have hm := encodeBytes_injective h3.2
  have hk := h3.1
  show (⟨e₁.signature.key, e₁.signature.message⟩ : Core.Signature)
    = ⟨e₂.signature.key, e₂.signature.message⟩
  rw [hk, hm]

/-- C7: two logs created from distinct key-pair seeds, each appending the
payload `"Test"` as its first entry, have different chain digests at index
0, for every chain-hash function that is collision-free on the fields it
digests (the signature differs and is included in the digest). -/
theorem distinct_keypairs_distinct_digests (H : Core.LogEntry → Nat)
    (hH : Core.IdealChainHash H) (s₁ s₂ : Nat) (hne : s₁ ≠ s₂) :
    Core.Log.hash H (Core.Log.append H (Core.Log.new s₁) [84, 101, 115, 116]) 0
      ≠ Core.Log.hash H (Core.Log.append H (Core.Log.new s₂) [84, 101, 115, 116]) 0 := by
  intro h
  simp only [Core.Log.hash, Core.Log.append, Core.Log.new, Core.Log.len, Core.LogEntry.sign,
    Core.LogEntryContent.new, Core.generate_keypair, Core.sign_data, List.nil_append,
    List.length_nil, List.get?, Option.map_some'] at h
  rw [Option.some_inj] at h
  have hsig := (hH _ _ h).2.2
  simp only [Core.Signature.mk.injEq] at hsig
  exact hne hsig.1

/-- Witness for C7 at seeds 0 and 1, with the collision-free `idealHash`
instance. -/
theorem distinct_keypairs_distinct_digests_witness :
    Core.Log.hash Core.idealHash
        (Core.Log.append Core.idealHash (Core.Log.new 0) [84, 101, 115, 116]) 0
      ≠ Core.Log.hash Core.idealHash
        (Core.Log.append Core.idealHash (Core.Log.new 1) [84, 101, 115, 116]) 0 :=
  distinct_keypairs_distinct_digests Core.idealHash idealHash_collision_free 0 1
    (by decide)

theorem getD_concat_self {α : Type} (l : List α) (e d : α) :
    (l ++ [e]).getD l.length d = e := by
  rw [List.getD_append_right _ _ _ _ (Nat.le_refl _), Nat.sub_self]
  rfl

theorem getD_set_self {α : Type} : ∀ (l : List α) (k : Nat) (e d : α), k < l.length →
    (l.set k e).getD k d = e
  | [], _, _, _, h => absurd h (by simp)
  | _ :: _, 0, _, _, _ => rfl
  | _ :: t, k + 1, e, d, h => getD_set_self t k e d (by simpa using h)

theorem getD_set_ne {α : Type} : ∀ (l : List α) (k j : Nat) (e d : α), j ≠ k →
    (l.set k e).getD j d = l.getD j d
  | [], _, _, _, _, _ => by simp
  | _ :: _, 0, 0, _, _, h => absurd rfl h
  | _ :: _, 0, _ + 1, _, _, _ => rfl
  | _ :: _, _ + 1, 0, _, _, _ => rfl
  | _ :: t, k + 1, j + 1, e, d, h =>
    getD_set_ne t k j e d (fun hh => h (by rw [hh]))

theorem append_entries (H : Core.LogEntry → Nat) (log : Core.Log) (data : List Nat) :
    (Core.Log.append H log data).entries
      = log.entries ++ [Core.LogEntry.sign
          (Core.LogEntryContent.new
            (if log.entries.length + 1 > 1 then
              H (log.entries.getD (log.entries.length + 1 - 2) Core.defaultEntry)
            else 0)
            data (log.entries.length + 1)) log.keypair] := rfl

theorem append_keypair (H : Core.LogEntry → Nat) (log : Core.Log) (data : List Nat) :
    (Core.Log.append H log data).keypair = log.keypair := rfl

theorem appendAll_nil (H : Core.LogEntry → Nat) (log : Core.Log) :
    Core.Log.appendAll H log [] = log := rfl

theorem appendAll_cons (H : Core.LogEntry → Nat) (log : Core.Log) (d : List Nat)
    (ps : List (List Nat)) :
    Core.Log.appendAll H log (d :: ps)
      = Core.Log.appendAll H (Core.Log.append H log d) ps := rfl

theorem appendAll_keypair (H : Core.LogEntry → Nat) (log : Core.Log)
    (ps : List (List Nat)) :
    (Core.Log.appendAll H log ps).keypair = log.keypair := by
  induction ps generalizing log with
  | nil => rfl
  | cons d ps ih => rw [appendAll_cons, ih, append_keypair]

theorem appendAll_length (H : Core.LogEntry → Nat) (log : Core.Log)
    (ps : List (List Nat)) :
    (Core.Log.appendAll H log ps).entries.length = log.entries.length + ps.length := by
  induction ps generalizing log with
  | nil => rfl
  | cons d ps ih =>
    rw [appendAll_cons, ih, append_entries]
    simp
    omega

theorem goodLog_new (H : Core.LogEntry → Nat) (seed : Nat) :
    Core.GoodLog H (Core.Log.new seed) := by
  intro i hi
  simp [Core.Log.new] at hi

theorem goodLog_append (H : Core.LogEntry → Nat) (log : Core.Log) (d : List Nat)
    (hg : Core.GoodLog H log) : Core.GoodLog H (Core.Log.append H log d) := by
  intro i hi
  rw [append_entries] at hi
  simp only [List.length_append, List.length_cons, List.length_nil] at hi
  rcases Nat.lt_or_ge i log.entries.length with hlt | hge
  · have h1 : ∀ d', (Core.Log.append H log d).entries.getD i d' = log.entries.getD i d' := by
      intro d'
      rw [append_entries]
      exact List.getD_append _ _ _ _ hlt
    have h2 : ∀ d', 0 < i →
        (Core.Log.append H log d).entries.getD (i - 1) d' = log.entries.getD (i - 1) d' := by
      intro d' h0
      rw [append_entries]
      exact List.getD_append _ _ _ _ (by omega)
    obtain ⟨ha, hb, hc⟩ := hg i hlt
    refine ⟨by rw [h1]; exact ha, fun h0 => ?_, ?_⟩
    · rw [h1, h2 _ h0]
      exact hb h0
    · rw [h1, append_keypair]
      exact hc
  · have hieq : i = log.entries.length := by omega
    subst hieq
    have h1 : (Core.Log.append H log d).entries.getD log.entries.length Core.defaultEntry
        = Core.LogEntry.sign
            (Core.LogEntryContent.new
              (if log.entries.length + 1 > 1 then
                H (log.entries.getD (log.entries.length + 1 - 2) Core.defaultEntry)
              else 0)
              d (log.entries.length + 1)) log.keypair := by
      rw [append_entries]
      exact getD_concat_self _ _ _
    refine ⟨by rw [h1]; rfl, fun h0 => ?_, by rw [h1, append_keypair]; rfl⟩
    rw [h1]
    have h2 : (Core.Log.append H log d).entries.getD (log.entries.length - 1)
        Core.defaultEntry = log.entries.getD (log.entries.length - 1) Core.defaultEntry := by
      rw [append_entries]
      exact List.getD_append _ _ _ _ (by omega)
    rw [h2]
    show (if log.entries.length + 1 > 1 then
        H (log.entries.getD (log.entries.length + 1 - 2) Core.defaultEntry)
      else 0) = H (log.entries.getD (log.entries.length - 1) Core.defaultEntry)
    rw [if_pos (by omega)]
    congr 2

theorem goodLog_appendAll (H : Core.LogEntry → Nat) (log : Core.Log)
    (ps : List (List Nat)) (hg : Core.GoodLog H log) :
    Core.GoodLog H (Core.Log.appendAll H log ps) := by
  induction ps generalizing log with
  | nil => exact hg
  | cons d ps ih => exact ih _ (goodLog_append H log d hg)

theorem verifyFrom_of_good (H : Core.LogEntry → Nat) (log : Core.Log)
    (hg : Core.GoodLog H log) (hk : log.keypair.public = log.keypair.secret) :
    ∀ (rest pre : List Core.LogEntry), log.entries = pre ++ rest →
      Core.verifyFrom H log.entries log.public_key rest (pre.length + 1) = true := by
  intro rest
  induction rest with
  | nil => intro pre _; rfl
  | cons e rest ih =>
    intro pre hsplit
    have hlen : pre.length < log.entries.length := by
      rw [hsplit]
      simp
    have hgetD : log.entries.getD pre.length Core.defaultEntry = e := by
      rw [hsplit, List.getD_append_right _ _ _ _ (Nat.le_refl _), Nat.sub_self]
      rfl
    obtain ⟨ha, hb, hc⟩ := hg pre.length hlen
    rw [hgetD] at ha hb hc
    show (Core.checkEntry H log.entries log.public_key e (pre.length + 1)
      && Core.verifyFrom H log.entries log.public_key rest (pre.length + 1 + 1)) = true
    rw [Bool.and_eq_true]
    constructor
    · unfold Core.checkEntry
      rw [Bool.and_eq_true, Bool.and_eq_true]
      refine ⟨⟨?_, ?_⟩, ?_⟩
      · rcases Nat.eq_zero_or_pos pre.length with h0 | h0
        · rw [h0]
          rfl
        · rw [if_pos (by omega)]
          rw [decide_eq_true_eq]
          have harg : pre.length + 1 - 2 = pre.length - 1 := by omega
          rw [harg, ← hb h0]
      · rw [decide_eq_true_eq, ha]
      · unfold Core.LogEntry.verify Core.verify_data
        rw [hc]
        unfold Core.sign_data Core.Log.public_key
        rw [if_pos (by rw [hk])]
        rfl
    · have hsplit' : log.entries = (pre ++ [e]) ++ rest := by
        rw [hsplit, List.append_assoc]
        rfl
      have := ih (pre ++ [e]) hsplit'
      simpa using this

theorem verify_of_good (H : Core.LogEntry → Nat) (log : Core.Log)
    (hg : Core.GoodLog H log) (hk : log.keypair.public = log.keypair.secret) :
    Core.Log.verify H log log.public_key = true := by
  have := verifyFrom_of_good H log hg hk log.entries [] rfl
  simpa [Core.Log.verify] using this

/-- C1: for every chain-hash function, seed and payload sequence, the log
built by appending the payloads to a fresh log has sequence numbers exactly
`1..n`, every later entry stores the chain hash of its predecessor as
`hashPrevious`, and `verify` with the log's own public key returns `true`
(vacuously for `n = 0`; every intermediate state is itself the fold of a
payload prefix, so this covers the state after each append). -/
theorem log_append_invariants (H : Core.LogEntry → Nat) (seed : Nat)
    (ps : List (List Nat)) :
    (Core.Log.appendAll H (Core.Log.new seed) ps).entries.map
        (fun e => e.content.sequence_number)
      = (List.range ps.length).map (fun i => i + 1)
    ∧ (∀ i, 0 < i → i < (Core.Log.appendAll H (Core.Log.new seed) ps).len →
        ((Core.Log.appendAll H (Core.Log.new seed) ps).entries.getD i
            Core.defaultEntry).content.hash_previous
          = H ((Core.Log.appendAll H (Core.Log.new seed) ps).entries.getD (i - 1)
              Core.defaultEntry))
    ∧ Core.Log.verify H (Core.Log.appendAll H (Core.Log.new seed) ps)
        (Core.Log.appendAll H (Core.Log.new seed) ps).public_key = true := by
  have hg := goodLog_appendAll H (Core.Log.new seed) ps (goodLog_new H seed)
  have hk : (Core.Log.appendAll H (Core.Log.new seed) ps).keypair.public
      = (Core.Log.appendAll H (Core.Log.new seed) ps).keypair.secret := by
    rw [appendAll_keypair]
    rfl
  have hlen : (Core.Log.appendAll H (Core.Log.new seed) ps).entries.length
      = ps.length := by
    rw [appendAll_length]
    simp [Core.Log.new]
  refine ⟨?_, fun i h0 hi => (hg i hi).2.1 h0, verify_of_good H _ hg hk⟩
  apply List.ext_getElem
  · simp [hlen]
  · intro n h1 h2
    simp only [List.getElem_map, List.getElem_range]
    have hn : n < (Core.Log.appendAll H (Core.Log.new seed) ps).entries.length := by
      simpa using h1
    have := (hg n hn).1
    rwa [List.getD_eq_getElem _ _ hn] at this

/-- Witness for C1 at the cheap concrete hash instance, seed 0 and two
one-byte payloads. -/
theorem log_append_invariants_witness :
    Core.Log.verify Core.cheapHash
        (Core.Log.appendAll Core.cheapHash (Core.Log.new 0) [[1], [2]])
        (Core.Log.appendAll Core.cheapHash (Core.Log.new 0) [[1], [2]]).public_key
      = true :=
  (log_append_invariants Core.cheapHash 0 [[1], [2]]).2.2

theorem appendAll_data_map (H : Core.LogEntry → Nat) (log : Core.Log)
    (ps : List (List Nat)) :
    (Core.Log.appendAll H log ps).entries.map (fun e => e.content.data)
      = log.entries.map (fun e => e.content.data) ++ ps := by
  induction ps generalizing log with
  | nil => simp [appendAll_nil]
  | cons d ps ih =>
    rw [appendAll_cons, ih, append_entries]
    simp [Core.LogEntry.sign, Core.LogEntryContent.new]

/-- C9: a fresh log has `len = 0` and `is_empty = true`; after appending any
payload sequence, `len` is the number of payloads, and `get i` returns the
`i`-th stored payload for every in-range index and "not found" (`none`) for
every out-of-range index — in particular after `"Hello, Test!"` and
`"1, 2, 3"`, `get 0` and `get 1` return those payloads and `get 2` returns
`none`. -/
theorem log_get_len_spec (H : Core.LogEntry → Nat) (seed : Nat)
    (ps : List (List Nat)) (i : Nat) :
    (Core.Log.appendAll H (Core.Log.new seed) ps).len = ps.length
    ∧ (Core.Log.appendAll H (Core.Log.new seed) ps).is_empty = ps.isEmpty
    ∧ (Core.Log.appendAll H (Core.Log.new seed) ps).get i = ps.get? i := by
  have hlen : (Core.Log.appendAll H (Core.Log.new seed) ps).entries.length
      = ps.length := by
    rw [appendAll_length]
    simp [Core.Log.new]
  have hdata : (Core.Log.appendAll H (Core.Log.new seed) ps).entries.map
      (fun e => e.content.data) = ps := by
    rw [appendAll_data_map]
    simp [Core.Log.new]
  refine ⟨hlen, ?_, ?_⟩
  · rw [Core.Log.is_empty]
    cases hent : (Core.Log.appendAll H (Core.Log.new seed) ps).entries with
    | nil =>
      cases ps with
      | nil => rfl
      | cons d ps => rw [hent] at hlen; simp at hlen
    | cons e t =>
      cases ps with
      | nil => rw [hent] at hlen; simp at hlen
      | cons d ps => rfl
  · rw [Core.Log.get]
    conv_rhs => rw [← hdata]
    rw [List.get?_map]

/-- Witness for C9 at the cheap concrete hash instance, seed 0, the payloads
of the repository's own `get` test, and index 2 (out of range). -/
theorem log_get_len_spec_witness :
    (Core.Log.appendAll Core.cheapHash (Core.Log.new 0)
        [[72, 101, 108, 108, 111], [49, 44, 32, 50]]).get 2 = none :=
  (log_get_len_spec Core.cheapHash 0 [[72, 101, 108, 108, 111], [49, 44, 32, 50]] 2).2.2

theorem be8_inj (x y : Nat) (hx : x < 18446744073709551616)
    (hy : y < 18446744073709551616) (h : be8 x = be8 y) : x = y := by
  simp only [be8, List.cons.injEq, and_true] at h
  norm_num at h
  omega

theorem checks_of_verifyFrom (H : Core.LogEntry → Nat) (all : List Core.LogEntry)
    (pk : Nat) :
    ∀ (rest : List Core.LogEntry) (n : Nat),
      Core.verifyFrom H all pk rest n = true →
      ∀ k, k < rest.length →
        Core.checkEntry H all pk (rest.getD k Core.defaultEntry) (n + k) = true := by
  intro rest
  induction rest with
  | nil =>
    intro n _ k hk
    simp at hk
  | cons e rest ih =>
    intro n hv k hk
    have hv' : (Core.checkEntry H all pk e n
        && Core.verifyFrom H all pk rest (n + 1)) = true := hv
    rw [Bool.and_eq_true] at hv'
    cases k with
    | zero => simpa using hv'.1
    | succ k =>
      have := ih (n + 1) hv'.2 k (by simpa using hk)
      have harg : n + 1 + k = n + (k + 1) := by omega
      rw [harg] at this
      simpa using this

theorem verifyFrom_false_of_bad (H : Core.LogEntry → Nat) (all : List Core.LogEntry)
    (pk : Nat) :
    ∀ (rest : List Core.LogEntry) (n k : Nat), k < rest.length →
      Core.checkEntry H all pk (rest.getD k Core.defaultEntry) (n + k) = false →
      Core.verifyFrom H all pk rest n = false := by
  intro rest
  induction rest with
  | nil =>
    intro n k hk
    simp at hk
  | cons e rest ih =>
    intro n k hk hbad
    show (Core.checkEntry H all pk e n && Core.verifyFrom H all pk rest (n + 1)) = false
    cases k with
    | zero =>
      have hb : Core.checkEntry H all pk e n = false := by simpa using hbad
      rw [hb, Bool.false_and]
    | succ k =>
      have hb : Core.checkEntry H all pk (rest.getD k Core.defaultEntry) (n + 1 + k)
          = false := by
        have harg : n + 1 + k = n + (k + 1) := by omega
        rw [harg]
        simpa using hbad
      rw [ih (n + 1) k (by simpa using hk) hb, Bool.and_false]

theorem seq_of_checkEntry {H : Core.LogEntry → Nat} {all : List Core.LogEntry}
    {pk : Nat} {e : Core.LogEntry} {n : Nat}
    (h : Core.checkEntry H all pk e n = true) :
    e.content.sequence_number = n := by
  unfold Core.checkEntry at h
  rw [Bool.and_eq_true, Bool.and_eq_true] at h
  have := h.1.2
  rw [decide_eq_true_eq] at this
  exact this.symm

theorem signature_of_checkEntry {H : Core.LogEntry → Nat} {all : List Core.LogEntry}
    {pk : Nat} {e : Core.LogEntry} {n : Nat}
    (h : Core.checkEntry H all pk e n = true) :
    e.signature = { key := pk, message := e.content.to_bytes } := by
  unfold Core.checkEntry at h
  rw [Bool.and_eq_true, Bool.and_eq_true] at h
  have hv := h.2
  unfold Core.LogEntry.verify Core.verify_data at hv
  split at hv
  · assumption
  · exact Bool.noConfusion hv

/-- C4: for every log that verifies under a public key, altering any stored
data byte, any `hashPrevious` (within `u64` range, as stored in the Rust
type), or any `sequenceNumber` of any entry, or swapping any two distinct
entries, makes `verify` with that public key return `false`. -/
theorem tampering_detected (H : Core.LogEntry → Nat) (pk : Nat) (log : Core.Log)
    (hv : Core.Log.verify H log pk = true) :
    (∀ k p b, k < log.entries.length →
      p < (log.entries.getD k Core.defaultEntry).content.data.length →
      b ≠ (log.entries.getD k Core.defaultEntry).content.data.getD p 0 →
      Core.Log.verify H { log with entries := Core.alterDataByte log.entries k p b } pk
        = false)
    ∧ (∀ k h, k < log.entries.length →
      h ≠ (log.entries.getD k Core.defaultEntry).content.hash_previous →
      h < 18446744073709551616 →
      (log.entries.getD k Core.defaultEntry).content.hash_previous
        < 18446744073709551616 →
      Core.Log.verify H { log with entries := Core.alterHashPrevious log.entries k h } pk
        = false)
    ∧ (∀ k s, k < log.entries.length →
      s ≠ (log.entries.getD k Core.defaultEntry).content.sequence_number →
      Core.Log.verify H { log with entries := Core.alterSequenceNumber log.entries k s } pk
        = false)
    ∧ (∀ i j, i < j → j < log.entries.length →
      Core.Log.verify H { log with entries := Core.swapEntries log.entries i j } pk
        = false) := by
  have hchecks : ∀ k, k < log.entries.length →
      Core.checkEntry H log.entries pk (log.entries.getD k Core.defaultEntry) (1 + k)
        = true :=
    checks_of_verifyFrom H log.entries pk log.entries 1 hv
  refine ⟨?_, ?_, ?_, ?_⟩
  · intro k p b hk hp hb
    have hsig := signature_of_checkEntry (hchecks k hk)
    have hget : (Core.alterDataByte log.entries k p b).getD k Core.defaultEntry
        = { log.entries.getD k Core.defaultEntry with content :=
            { (log.entries.getD k Core.defaultEntry).content with
              data := (log.entries.getD k Core.defaultEntry).content.data.set p b } } := by
      unfold Core.alterDataByte
      exact getD_set_self _ _ _ _ hk
    have hbytes : ({ log.entries.getD k Core.defaultEntry with content :=
        { (log.entries.getD k Core.defaultEntry).content with
          data := (log.entries.getD k Core.defaultEntry).content.data.set p b } }
        : Core.LogEntry).content.to_bytes
        ≠ (log.entries.getD k Core.defaultEntry).content.to_bytes := by
      intro hEq
      unfold Core.LogEntryContent.to_bytes at hEq
      have hd : (log.entries.getD k Core.defaultEntry).content.data.set p b
          = (log.entries.getD k Core.defaultEntry).content.data :=
        List.append_cancel_right (List.append_cancel_right hEq)
      have hgb : ((log.entries.getD k Core.defaultEntry).content.data.set p b).getD p 0
          = (log.entries.getD k Core.defaultEntry).content.data.getD p 0 := by
        rw [hd]
      rw [getD_set_self _ _ _ _ hp] at hgb
      exact hb hgb
    have hverify : Core.LogEntry.verify
        { log.entries.getD k Core.defaultEntry with content :=
          { (log.entries.getD k Core.defaultEntry).content with
            data := (log.entries.getD k Core.defaultEntry).content.data.set p b } } pk
        = false := by
      unfold Core.LogEntry.verify Core.verify_data
      rw [if_neg ?_]
      · rfl
      · intro hc
        rw [show ({ log.entries.getD k Core.defaultEntry with content :=
            { (log.entries.getD k Core.defaultEntry).content with
              data := (log.entries.getD k Core.defaultEntry).content.data.set p b } }
            : Core.LogEntry).signature
            = (log.entries.getD k Core.defaultEntry).signature from rfl, hsig] at hc
        exact hbytes (congrArg Core.Signature.message hc).symm
    have hbad : Core.checkEntry H (Core.alterDataByte log.entries k p b) pk
        ((Core.alterDataByte log.entries k p b).getD k Core.defaultEntry) (1 + k)
        = false := by
      rw [hget]
      unfold Core.checkEntry
      rw [hverify, Bool.and_false]
    exact verifyFrom_false_of_bad H _ pk _ 1 k
      (by simpa [Core.alterDataByte] using hk) hbad
  · intro k h hk hne hb1 hb2
    have hsig := signature_of_checkEntry (hchecks k hk)
    have hget : (Core.alterHashPrevious log.entries k h).getD k Core.defaultEntry
        = { log.entries.getD k Core.defaultEntry with content :=
            { (log.entries.getD k Core.defaultEntry).content with hash_previous := h } } := by
      unfold Core.alterHashPrevious
      exact getD_set_self _ _ _ _ hk
    have hbytes : ({ log.entries.getD k Core.defaultEntry with content :=
        { (log.entries.getD k Core.defaultEntry).content with hash_previous := h } }
        : Core.LogEntry).content.to_bytes
        ≠ (log.entries.getD k Core.defaultEntry).content.to_bytes := by
      intro hEq
      unfold Core.LogEntryContent.to_bytes at hEq
      have hmid := List.append_cancel_right hEq
      have hbe := List.append_cancel_left hmid
      exact hne (be8_inj _ _ hb1 hb2 hbe)
    have hverify : Core.LogEntry.verify
        { log.entries.getD k Core.defaultEntry with content :=
          { (log.entries.getD k Core.defaultEntry).content with hash_previous := h } } pk
        = false := by
      unfold Core.LogEntry.verify Core.verify_data
      rw [if_neg ?_]
      · rfl
      · intro hc
        rw [show ({ log.entries.getD k Core.defaultEntry with content :=
            { (log.entries.getD k Core.defaultEntry).content with hash_previous := h } }
            : Core.LogEntry).signature
            = (log.entries.getD k Core.defaultEntry).signature from rfl, hsig] at hc
        exact hbytes (congrArg Core.Signature.message hc).symm
    have hbad : Core.checkEntry H (Core.alterHashPrevious log.entries k h) pk
        ((Core.alterHashPrevious log.entries k h).getD k Core.defaultEntry) (1 + k)
        = false := by
      rw [hget]
      unfold Core.checkEntry
      rw [hverify, Bool.and_false]
    exact verifyFrom_false_of_bad H _ pk _ 1 k
      (by simpa [Core.alterHashPrevious] using hk) hbad
  · intro k s hk hne
    have hseq := seq_of_checkEntry (hchecks k hk)
    have hget : (Core.alterSequenceNumber log.entries k s).getD k Core.defaultEntry
        = { log.entries.getD k Core.defaultEntry with content :=
            { (log.entries.getD k Core.defaultEntry).content with
              sequence_number := s } } := by
      unfold Core.alterSequenceNumber
      exact getD_set_self _ _ _ _ hk
    have hbad : Core.checkEntry H (Core.alterSequenceNumber log.entries k s) pk
        ((Core.alterSequenceNumber log.entries k s).getD k Core.defaultEntry) (1 + k)
        = false := by
      rw [hget]
      unfold Core.checkEntry
      have hd : decide (1 + k
          = ({ log.entries.getD k Core.defaultEntry with content :=
              { (log.entries.getD k Core.defaultEntry).content with
                sequence_number := s } } : Core.LogEntry).content.sequence_number)
          = false := by
        refine decide_eq_false ?_
        intro hc
        have hc' : 1 + k = s := hc
        omega
      rw [hd, Bool.and_false, Bool.false_and]
    exact verifyFrom_false_of_bad H _ pk _ 1 k
      (by simpa [Core.alterSequenceNumber] using hk) hbad
  · intro i j hij hj
    have hseqj := seq_of_checkEntry (hchecks j hj)
    have hget : (Core.swapEntries log.entries i j).getD i Core.defaultEntry
        = log.entries.getD j Core.defaultEntry := by
      unfold Core.swapEntries
      rw [getD_set_ne _ j i _ _ (by omega)]
      exact getD_set_self _ _ _ _ (by omega)
    have hbad : Core.checkEntry H (Core.swapEntries log.entries i j) pk
        ((Core.swapEntries log.entries i j).getD i Core.defaultEntry) (1 + i)
        = false := by
      rw [hget]
      unfold Core.checkEntry
      have hd : decide (1 + i
          = (log.entries.getD j Core.defaultEntry).content.sequence_number) = false := by
        rw [hseqj]
        exact decide_eq_false (by omega)
      rw [hd, Bool.and_false, Bool.false_and]
    refine verifyFrom_false_of_bad H _ pk _ 1 i ?_ hbad
    show i < (Core.swapEntries log.entries i j).length
    unfold Core.swapEntries
    simp only [List.length_set]
    omega

/-- Witness for C4: a verified two-entry log with its entries swapped no
longer verifies. -/
theorem tampering_detected_witness :
    Core.Log.verify Core.cheapHash
        { Core.Log.appendAll Core.cheapHash (Core.Log.new 0) [[1], [2]] with
          entries := Core.swapEntries
            (Core.Log.appendAll Core.cheapHash (Core.Log.new 0) [[1], [2]]).entries 0 1 }
        0
      = false :=
  (tampering_detected Core.cheapHash 0
      (Core.Log.appendAll Core.cheapHash (Core.Log.new 0) [[1], [2]])
      (by decide)).2.2.2 0 1 (by decide) (by decide)

end P2PChat
